import Mathlib

/-!
Verification development for the tunisport image scraper
(`tunisport_scraper.py`).  The Python source is shallowly embedded:
strings are `List Char`, the network is an oracle assigning an outcome to
each HTTP attempt, and the per-brand scraping loop is a pure fold over the
page structure the site would serve.  Line numbers in the doc comments
refer to `tunisport_scraper.py`.
-/

/-! ## Filename sanitization (save_item, lines 254-259) -/

/-- The character class of `FORBIDDEN_CHAR_RE` (line 62). -/
def FORBIDDEN_CHARS : List Char := ['<', '>', ':', '"', '/', '\\', '|', '?', '*']

/-- Membership in `FORBIDDEN_CHAR_RE`. -/
def isForbidden (c : Char) : Bool := FORBIDDEN_CHARS.contains c

/-- The characters Python treats as white-space (`str.isspace()`,
CPython's `Py_UNICODE_ISSPACE` table): the ASCII class `[ \t\n\v\f\r]`,
the separators U+001C-U+001F, and the Unicode spaces NEL, NBSP, Ogham
space, U+2000-U+200A, LS, PS, narrow NBSP, medium mathematical space and
ideographic space. -/
def PY_WHITESPACE : List Char :=
  ['\x09', '\x0a', '\x0b', '\x0c', '\x0d', '\x1c', '\x1d', '\x1e', '\x1f', ' ',
   '\u0085', '\u00A0', '\u1680',
   '\u2000', '\u2001', '\u2002', '\u2003', '\u2004', '\u2005',
   '\u2006', '\u2007', '\u2008', '\u2009', '\u200A',
   '\u2028', '\u2029', '\u202F', '\u205F', '\u3000']

/-- Python's white-space test, shared by the `\s` class of the regex on
line 256 and by `str.strip()` on line 373 (both use the
`str.isspace()` character set). -/
def pyIsSpace (c : Char) : Bool := PY_WHITESPACE.contains c

/-- Line 255: every forbidden character is replaced by a dash. -/
def replaceForbidden (l : List Char) : List Char :=
  l.map (fun c => if isForbidden c then '-' else c)

/-- Replace every maximal run of characters satisfying `p` by a single
dash; this is the substitution performed by the regexes on lines 256
(white-space runs) and 257 (dash runs).  The flag records whether we are
inside a run that has already emitted its dash. -/
def collapseAux (p : Char → Bool) (inRun : Bool) : List Char → List Char
  | [] => []
  | c :: cs =>
    if p c then
      if inRun then collapseAux p true cs
      else '-' :: collapseAux p true cs
    else c :: collapseAux p false cs

/-- Line 256: white-space runs become single dashes. -/
def collapseSpaces (l : List Char) : List Char := collapseAux pyIsSpace false l

/-- Line 257: dash runs become single dashes. -/
def collapseDashes (l : List Char) : List Char := collapseAux (fun c => c = '-') false l

/-- Line 258: drop a trailing "-..." if present.  By this stage the name
contains no newline (all white-space was replaced on line 256), so the
regex anchor matches only the true end of the string, and the pattern can
match at most once. -/
def stripTrailingEllipsis (l : List Char) : List Char :=
  if List.isSuffixOf ['-', '.', '.', '.'] l then l.take (l.length - 4) else l

/-- The full sanitization pipeline of lines 255-258, applied to the joined
string of line 254. -/
def sanitizeName (l : List Char) : List Char :=
  stripTrailingEllipsis (collapseDashes (collapseSpaces (replaceForbidden l)))

/-- Python's `split('.')` (never returns an empty list). -/
def splitDot : List Char → List (List Char)
  | [] => [[]]
  | c :: rest =>
    if c = '.' then [] :: splitDot rest
    else
      match splitDot rest with
      | [] => [[c]]
      | h :: t => (c :: h) :: t

/-- Line 259: `image_url.split('.')[-1]`, the extension taken from the
image URL. -/
def imageExt (image_url : List Char) : List Char := (splitDot image_url).getLastD []

/-- The file name derived by `save_item` (lines 254-259) for an item
`{brand, model, submodel, image_url}`. -/
def image_name (brand model submodel image_url : List Char) : List Char :=
  sanitizeName (brand ++ ('-' :: (model ++ ('-' :: submodel)))) ++ ('.' :: imageExt image_url)

/-! ## The fetch layer (get_response, lines 127-141) -/

/-- Line 37. -/
def MAX_RETRIES : Nat := 3

/-- What one `requests.get` attempt does: raise a transport-level
exception, or complete with an HTTP status code. -/
inductive AttemptResult
  | exn
  | resp (status : Nat)

/-- The observable outcome of `get_response`.  The Python function returns
the response on success and `None` otherwise, logging distinct messages
for a bad status (line 136) and for exhausted retries (line 140); the
failure constructors record that distinction. -/
inductive GetResult
  | ok (status : Nat)
  | httpError (status : Nat)
  | unreachable
deriving DecidableEq

/-- Trace of one `get_response` call: its result, how many `requests.get`
attempts were made, and how many `time.sleep(SLEEP_TIME)` delays ran. -/
structure FetchTrace where
  result : GetResult
  attempts : Nat
  sleeps : Nat
deriving DecidableEq

/-- The retry loop of lines 127-138.  `oracle i` is the outcome of the
`i`-th `requests.get` attempt; the fuel is the remaining iterations of
`range(0, MAX_RETRIES)`.  An exception sleeps and retries (lines 131-132);
a completed response sleeps once and returns immediately, as failure when
the status is not `requests.codes.ok` (200). -/
def get_response_aux (oracle : Nat → AttemptResult) : Nat → Nat → FetchTrace
  | _, 0 => { result := GetResult.unreachable, attempts := 0, sleeps := 0 }
  | idx, fuel + 1 =>
    match oracle idx with
    | AttemptResult.exn =>
      let t := get_response_aux oracle (idx + 1) fuel
      { result := t.result, attempts := t.attempts + 1, sleeps := t.sleeps + 1 }
    | AttemptResult.resp s =>
      if s = 200 then { result := GetResult.ok s, attempts := 1, sleeps := 1 }
      else { result := GetResult.httpError s, attempts := 1, sleeps := 1 }

/-- `get_response` (lines 127-141): run the loop from attempt 0 with
`MAX_RETRIES` iterations available. -/
def get_response (oracle : Nat → AttemptResult) : FetchTrace :=
  get_response_aux oracle 0 MAX_RETRIES

/-! ## Column-width bookkeeping (save_item, lines 272-283) -/

/-- Line 273: the running maximum image width maintained by `save_item`. -/
def save_item_width (image_width max_image_width : Nat) : Nat :=
  max image_width max_image_width

/-- The successive values passed to `worksheet.set_column_pixels` (line
279) when rows with the given image widths are appended, starting from
running maximum `m` (`scrape_brand` starts it at 0, line 321). -/
def widthTrace (m : Nat) : List Nat → List Nat
  | [] => []
  | w :: rest => save_item_width w m :: widthTrace (save_item_width w m) rest

/-! ## Per-brand scraping (scrape_brand, lines 285-348) and the
orchestrating loop (main, lines 68-96)

The site is abstracted as the page structure `scrape_brand` would
traverse: a brand page lists models, each model page lists submodels, and
each submodel either yields its image (`saved`, with the image's pixel
width) or fails somewhere inside `save_item` (`failImage`: folder
creation, download, or disk write fails, so `save_item` returns `None`).
The world is deterministic: fetching the same URL twice (lines 300 and
324 both call `scrape_page(url)`) gives the same outcome. -/

/-- Outcome of `save_item` for one submodel row. -/
inductive SubOutcome
  | saved (width : Nat)
  | failImage
deriving DecidableEq

/-- One model page: whether `scrape_page(model['url'])` (line 326) raises,
and the submodel outcomes. -/
structure ModelData where
  pageFails : Bool
  submodels : List SubOutcome
deriving DecidableEq

/-- One brand as the crawl sees it: its URL, whether scraping the brand's
own page raises (lines 299-304), whether `workbook.close()` raises (line
291), and its model pages. -/
structure BrandData where
  url : List Char
  initFails : Bool
  closeFails : Bool
  models : List ModelData
deriving DecidableEq

/-- `finish_brand_scraping` (lines 289-295): returns `False`
(`some false`) when `workbook.close()` raises, and otherwise falls off
the end, i.e. returns Python's `None` (`none`). -/
def finish_brand_scraping (close_fails : Bool) : Option Bool :=
  if close_fails then some false else none

/-- State of the submodel/model loops of lines 320-341: the `row_count`
and `max_image_width` variables, plus whether the loop is still on its
success path, the number of `get_response` calls made, and the number of
rows fully written to the worksheet. -/
structure LoopState where
  ok : Bool
  fetches : Nat
  rows : Nat
  width : Nat
  savedRows : Nat
deriving DecidableEq

/-- The submodel loop (lines 327-341).  Each submodel increments
`row_count` and costs one image fetch inside `save_item`; a failing
`save_item` returns `None` and the loop aborts (lines 339-341). -/
def processSubmodels : List SubOutcome → LoopState → LoopState
  | [], st => st
  | SubOutcome.saved iw :: rest, st =>
    processSubmodels rest
      { ok := st.ok, fetches := st.fetches + 1, rows := st.rows + 1,
        width := save_item_width iw st.width, savedRows := st.savedRows + 1 }
  | SubOutcome.failImage :: _, st =>
    { st with ok := false, fetches := st.fetches + 1, rows := st.rows + 1 }

/-- The model loop (lines 324-341): fetch the model page (one
`get_response` call inside `scrape_page`); a raising page aborts via the
`except` on line 342, otherwise the submodels run and a failed row stops
the whole brand. -/
def processModels : List ModelData → LoopState → LoopState
  | [], st => st
  | m :: rest, st =>
    if m.pageFails then { st with fetches := st.fetches + 1, ok := false }
    else
      let st2 := processSubmodels m.submodels { st with fetches := st.fetches + 1 }
      if st2.ok then processModels rest st2 else st2

/-- Observable result of one `scrape_brand` call: the returned boolean,
the number of `get_response` calls, and the number of worksheet write
operations (4 header writes, line 316-319, plus 6 per saved row, lines
276-281). -/
structure BrandRun where
  success : Bool
  fetches : Nat
  writes : Nat
deriving DecidableEq

/-- `scrape_brand` (lines 285-348).  The initial `scrape_page(url)` costs
one fetch; if it raises the function returns `False` before the workbook
exists (lines 299-304).  Otherwise the workbook and header are written,
`scrape_page(url)` is fetched a second time (line 324), and the model
loop runs.  Note the final lines 347-348: the result of
`finish_brand_scraping` is discarded and `True` is returned regardless of
whether `workbook.close()` raised. -/
def scrapeBrandRun (b : BrandData) : BrandRun :=
  if b.initFails then { success := false, fetches := 1, writes := 0 }
  else
    let st := processModels b.models
      { ok := true, fetches := 2, rows := 0, width := 0, savedRows := 0 }
    let _fin := finish_brand_scraping b.closeFails
    { success := st.ok, fetches := st.fetches, writes := 4 + 6 * st.savedRows }

/-- Observable result of the brand loop of `main` (lines 84-94): the
final in-memory (and persisted) ledger `processed_brands`, the number of
`scrape_brand` invocations, the total `get_response` calls and worksheet
writes they performed, whether the run ended through the fatal-error
`return` (lines 89-91), and whether it stopped before exhausting the
brand list (fatal `return` or the `break` on lines 93-94). -/
structure RunResult where
  ledger : List (List Char)
  scrapeCalls : Nat
  fetches : Nat
  writes : Nat
  halted : Bool
  stopped : Bool
deriving DecidableEq

/-- The brand loop of `main` (lines 84-94), starting from the ledger
loaded on line 81.  A brand already in `processed_brands` is skipped; an
unprocessed brand is scraped, appended to the ledger and saved on
success, and aborts the run on failure; after each brand the loop breaks
once the ledger holds more than 4 entries (line 93). -/
def runBrands : List BrandData → List (List Char) → RunResult
  | [], L => { ledger := L, scrapeCalls := 0, fetches := 0, writes := 0,
               halted := false, stopped := false }
  | b :: rest, L =>
    if b.url ∈ L then
      if L.length > 4 then
        { ledger := L, scrapeCalls := 0, fetches := 0, writes := 0,
          halted := false, stopped := true }
      else runBrands rest L
    else
      let r := scrapeBrandRun b
      if r.success then
        if (L ++ [b.url]).length > 4 then
          { ledger := L ++ [b.url], scrapeCalls := 1, fetches := r.fetches,
            writes := r.writes, halted := false, stopped := true }
        else
          let k := runBrands rest (L ++ [b.url])
          { ledger := k.ledger, scrapeCalls := k.scrapeCalls + 1,
            fetches := k.fetches + r.fetches, writes := k.writes + r.writes,
            halted := k.halted, stopped := k.stopped }
      else
        { ledger := L, scrapeCalls := 1, fetches := r.fetches,
          writes := r.writes, halted := true, stopped := true }

/-- `main` (lines 68-96) on a run where the catalog page is reachable:
`get_brands` (line 74) performs one `get_response` call for the brand
list, then the brand loop runs against the ledger loaded by
`load_brand_list`. -/
def mainRun (brands : List BrandData) (L : List (List Char)) : RunResult :=
  let r := runBrands brands L
  { r with fetches := r.fetches + 1 }

/-- True when some submodel of the brand makes `save_item` return
`None`. -/
def isFailImage : SubOutcome → Bool
  | SubOutcome.failImage => true
  | SubOutcome.saved _ => false

/-- The brand contains a submodel whose image store fails. -/
def brandHasSaveFailure (b : BrandData) : Bool :=
  b.models.any (fun m => m.submodels.any isFailImage)

/-! ## The progress ledger (save_brand_list / load_brand_list,
lines 351-373)

The file contents are a `List Char`. -/

/-- `save_brand_list` (lines 351-359): the bytes written by
`f.writelines([brand + '\n' for brand in brands])`. -/
def save_brand_list (brands : List (List Char)) : List Char :=
  brands.foldr (fun b acc => b ++ ('\n' :: acc)) []

/-- Split off the first line, keeping its terminating newline, as
`f.readlines` does. -/
def splitLine : List Char → List Char × List Char
  | [] => ([], [])
  | c :: rest =>
    if c = '\n' then (['\n'], rest)
    else
      let p := splitLine rest
      (c :: p.1, p.2)

theorem splitLine_snd_length : ∀ l : List Char, (splitLine l).2.length ≤ l.length := by
  intro l
  induction l with
  | nil => simp [splitLine]
  | cons c rest ih =>
    by_cases h : c = '\n'
    · simp [splitLine, h]
    · simp [splitLine, h]
      omega

theorem splitLine_snd_lt (c : Char) (rest : List Char) :
    (splitLine (c :: rest)).2.length < (c :: rest).length := by
  by_cases h : c = '\n'
  · simp [splitLine, h]
  · have := splitLine_snd_length rest
    simp [splitLine, h]
    omega

/-- Python's `f.readlines()`: the file contents cut after each newline,
with a final unterminated line kept as-is. -/
def readlines : List Char → List (List Char)
  | [] => []
  | c :: rest =>
    (splitLine (c :: rest)).1 :: readlines (splitLine (c :: rest)).2
termination_by l => l.length
decreasing_by exact splitLine_snd_lt _ _

/-- Python's `str.strip()` with no argument: white-space removed from
both ends. -/
def pystrip (l : List Char) : List Char :=
  ((l.dropWhile pyIsSpace).reverse.dropWhile pyIsSpace).reverse

/-- `load_brand_list` (lines 362-373) on an existing, readable file with
the given contents: each line of `f.readlines()` is stripped. -/
def load_brand_list (content : List Char) : List (List Char) :=
  (readlines content).map pystrip

/-! ## Fetch-layer claims -/

theorem get_response_aux_all_exn (oracle : Nat → AttemptResult)
    (h : ∀ i, oracle i = AttemptResult.exn) :
    ∀ fuel idx, get_response_aux oracle idx fuel =
      { result := GetResult.unreachable, attempts := fuel, sleeps := fuel } := by
  intro fuel
  induction fuel with
  | zero => intro idx; rfl
  | succ n ih =>
    intro idx
    simp [get_response_aux, h idx, ih (idx + 1)]

/-- C5: if every HTTP attempt raises a transport-level error,
`get_response` makes exactly `MAX_RETRIES` (3) attempts, sleeps after each
one, terminates, and returns the unreachable failure (the `None` return
with the can't-execute log, line 140-141). -/
theorem retry_ceiling_unreachable (oracle : Nat → AttemptResult)
    (h : ∀ i, oracle i = AttemptResult.exn) :
    get_response oracle =
      { result := GetResult.unreachable, attempts := MAX_RETRIES, sleeps := MAX_RETRIES } ∧
    MAX_RETRIES = 3 := by
  exact ⟨get_response_aux_all_exn oracle h MAX_RETRIES 0, rfl⟩

/-- Witness for `retry_ceiling_unreachable` at the always-failing oracle. -/
theorem retry_ceiling_unreachable_witness :
    get_response (fun _ => AttemptResult.exn) =
      { result := GetResult.unreachable, attempts := MAX_RETRIES, sleeps := MAX_RETRIES } ∧
    MAX_RETRIES = 3 :=
  retry_ceiling_unreachable (fun _ => AttemptResult.exn) (fun _ => rfl)

/-- C6: if the first attempt completes with HTTP 404, `get_response`
makes exactly one attempt, sleeps exactly once, and returns the
HTTP-status failure immediately without retrying (lines 134-137). -/
theorem non_retry_on_status (oracle : Nat → AttemptResult)
    (h : oracle 0 = AttemptResult.resp 404) :
    get_response oracle =
      { result := GetResult.httpError 404, attempts := 1, sleeps := 1 } := by
  show get_response_aux oracle 0 (2 + 1) = _
  simp [get_response_aux, h]

/-- Witness for `non_retry_on_status` at an oracle answering 404. -/
theorem non_retry_on_status_witness :
    get_response (fun _ => AttemptResult.resp 404) =
      { result := GetResult.httpError 404, attempts := 1, sleeps := 1 } :=
  non_retry_on_status (fun _ => AttemptResult.resp 404) rfl

/-! ## Filename claims: the concrete sanitation example -/

/-- C4: for the item with brand "A/B", model "C:D", submodel "E " the
derived filename contains no forbidden character, no two adjacent
separator characters, and ends with '.' followed by the part of the image
URL after its last '.'. -/
theorem filename_sanitation_example :
    (∀ c ∈ image_name "A/B".toList "C:D".toList "E ".toList
        "https://www.tunisport.es/images/photo.jpg".toList, isForbidden c = false) ∧
    ((image_name "A/B".toList "C:D".toList "E ".toList
        "https://www.tunisport.es/images/photo.jpg".toList).zip
      (image_name "A/B".toList "C:D".toList "E ".toList
        "https://www.tunisport.es/images/photo.jpg".toList).tail).all
      (fun p => !(p.1 == '-' && p.2 == '-')) = true ∧
    List.isSuffixOf ('.' :: imageExt "https://www.tunisport.es/images/photo.jpg".toList)
      (image_name "A/B".toList "C:D".toList "E ".toList
        "https://www.tunisport.es/images/photo.jpg".toList) = true := by
  decide

/-! ## The finalize bug (C1) -/

/-- C1: the code contradicts the claim.  For a brand whose pages scrape
and whose images save but whose `workbook.close()` raises,
`finish_brand_scraping` reports the failure (`return False`, line 294),
yet `scrape_brand` discards that value (line 347) and returns `True`, so
`main` records the brand's URL in the processed-brands ledger. -/
theorem finalize_failure_not_surfaced :
    finish_brand_scraping true = some false ∧
    (scrapeBrandRun
      { url := "https://www.tunisport.es/catalog/chip-tuning/audi".toList,
        initFails := false, closeFails := true,
        models := [{ pageFails := false, submodels := [SubOutcome.saved 7] }] }).success
      = true ∧
    "https://www.tunisport.es/catalog/chip-tuning/audi".toList ∈
      (runBrands
        [{ url := "https://www.tunisport.es/catalog/chip-tuning/audi".toList,
           initFails := false, closeFails := true,
           models := [{ pageFails := false, submodels := [SubOutcome.saved 7] }] }]
        []).ledger := by
  decide

/-! ## Idempotent resume (C2) -/

theorem runBrands_all_processed (brands : List BrandData) (L : List (List Char))
    (h : ∀ b ∈ brands, b.url ∈ L) :
    (runBrands brands L).fetches = 0 ∧ (runBrands brands L).writes = 0 ∧
    (runBrands brands L).scrapeCalls = 0 ∧ (runBrands brands L).ledger = L := by
  induction brands with
  | nil => simp [runBrands]
  | cons b rest ih =>
    have hb : b.url ∈ L := h b (List.mem_cons_self _ _)
    have hr : ∀ x ∈ rest, x.url ∈ L := fun x hx => h x (List.mem_cons_of_mem _ hx)
    by_cases hl : L.length > 4
    · simp [runBrands, hb, hl]
    · simp only [runBrands, if_pos hb, if_neg hl]
      exact ih hr

/-- C2 counterexample: with an unchanged catalog of one brand and a
ledger already containing its URL, the second run still performs one HTTP
fetch (the catalog page fetched by `get_brands`, line 74), so the fetch
count is not zero. -/
theorem second_run_fetch_count_not_zero :
    (∀ b ∈ [({ url := "https://www.tunisport.es/catalog/chip-tuning/audi".toList,
               initFails := false, closeFails := false, models := [] } : BrandData)],
        b.url ∈ ["https://www.tunisport.es/catalog/chip-tuning/audi".toList]) ∧
    (mainRun
      [{ url := "https://www.tunisport.es/catalog/chip-tuning/audi".toList,
         initFails := false, closeFails := false, models := [] }]
      ["https://www.tunisport.es/catalog/chip-tuning/audi".toList]).fetches ≠ 0 := by
  decide

/-- C2 amended: with an unchanged catalog and a ledger already containing
every brand URL, the run performs exactly one HTTP fetch (the top-level
catalog listing in `get_brands`), zero artifact writes, zero
`scrape_brand` invocations, and leaves the ledger unchanged. -/
theorem second_run_single_catalog_fetch (brands : List BrandData) (L : List (List Char))
    (h : ∀ b ∈ brands, b.url ∈ L) :
    (mainRun brands L).fetches = 1 ∧ (mainRun brands L).writes = 0 ∧
    (mainRun brands L).scrapeCalls = 0 ∧ (mainRun brands L).ledger = L := by
  have hr := runBrands_all_processed brands L h
  simp [mainRun, hr.1, hr.2.1, hr.2.2.1, hr.2.2.2]

/-- Witness for `second_run_single_catalog_fetch` at a one-brand catalog. -/
theorem second_run_single_catalog_fetch_witness :
    (mainRun
      [{ url := "https://www.tunisport.es/catalog/chip-tuning/audi".toList,
         initFails := false, closeFails := false, models := [] }]
      ["https://www.tunisport.es/catalog/chip-tuning/audi".toList]).fetches = 1 ∧
    (mainRun
      [{ url := "https://www.tunisport.es/catalog/chip-tuning/audi".toList,
         initFails := false, closeFails := false, models := [] }]
      ["https://www.tunisport.es/catalog/chip-tuning/audi".toList]).writes = 0 ∧
    (mainRun
      [{ url := "https://www.tunisport.es/catalog/chip-tuning/audi".toList,
         initFails := false, closeFails := false, models := [] }]
      ["https://www.tunisport.es/catalog/chip-tuning/audi".toList]).scrapeCalls = 0 ∧
    (mainRun
      [{ url := "https://www.tunisport.es/catalog/chip-tuning/audi".toList,
         initFails := false, closeFails := false, models := [] }]
      ["https://www.tunisport.es/catalog/chip-tuning/audi".toList]).ledger =
      ["https://www.tunisport.es/catalog/chip-tuning/audi".toList] :=
  second_run_single_catalog_fetch _ _ (by decide)

/-! ## Monotone column width (C7) -/

theorem widthTrace_head_ge (rest : List Nat) (x y : Nat)
    (h : y ∈ (widthTrace x rest).head?) : x ≤ y := by
  cases rest with
  | nil => simp [widthTrace] at h
  | cons w r =>
    simp [widthTrace, save_item_width] at h
    omega

theorem widthTrace_chain (ws : List Nat) : ∀ m, List.Chain' (· ≤ ·) (widthTrace m ws) := by
  induction ws with
  | nil => intro m; simp [widthTrace]
  | cons w rest ih =>
    intro m
    rw [widthTrace, List.chain'_cons']
    exact ⟨fun y hy => widthTrace_head_ge rest _ y hy, ih _⟩

theorem widthTrace_getD (ws : List Nat) : ∀ m i, i < ws.length →
    (∀ w ∈ ws.take (i + 1), w ≤ (widthTrace m ws).getD i 0) ∧
    m ≤ (widthTrace m ws).getD i 0 ∧
    ((widthTrace m ws).getD i 0 ∈ ws.take (i + 1) ∨ (widthTrace m ws).getD i 0 = m) := by
  induction ws with
  | nil => intro m i h; simp at h
  | cons w rest ih =>
    intro m i h
    cases i with
    | zero =>
      simp [widthTrace, save_item_width]
      omega
    | succ j =>
      have hj : j < rest.length := by
        simpa using h
      have IH := ih (save_item_width w m) j hj
      simp only [widthTrace, List.getD_cons_succ, List.take_succ_cons]
      refine ⟨?_, ?_, ?_⟩
      · intro x hx
        rcases List.mem_cons.mp hx with rfl | hx'
        · exact le_trans (Nat.le_max_left x m) IH.2.1
        · exact IH.1 x hx'
      · exact le_trans (Nat.le_max_right w m) IH.2.1
      · rcases IH.2.2 with hmem | heq
        · exact Or.inl (List.mem_cons_of_mem _ hmem)
        · rcases max_choice w m with h1 | h1
          · exact Or.inl (by rw [heq, save_item_width, h1]; exact List.mem_cons_self _ _)
          · exact Or.inr (by rw [heq, save_item_width, h1])

/-- C7: the image-column width after each appended row equals the maximum
image pixel width seen so far and never decreases between rows; in
particular appending rows with image widths [100, 50, 200, 10] yields the
column widths [100, 100, 200, 200] and a final width of 200. -/
theorem column_width_monotone_max :
    (∀ (ws : List Nat) (m : Nat), List.Chain' (· ≤ ·) (widthTrace m ws)) ∧
    (∀ (ws : List Nat) (i : Nat), i < ws.length →
      ((∀ w ∈ ws.take (i + 1), w ≤ (widthTrace 0 ws).getD i 0) ∧
        (widthTrace 0 ws).getD i 0 ∈ ws.take (i + 1))) ∧
    widthTrace 0 [100, 50, 200, 10] = [100, 100, 200, 200] := by
  refine ⟨fun ws m => widthTrace_chain ws m, fun ws i h => ?_, by decide⟩
  have H := widthTrace_getD ws 0 i h
  refine ⟨H.1, ?_⟩
  rcases H.2.2 with hmem | heq
  · exact hmem
  · have hne : ws.take (i + 1) ≠ [] := by
      cases ws with
      | nil => simp at h
      | cons a l => simp
    rcases List.exists_mem_of_ne_nil _ hne with ⟨x, hx⟩
    have hx0 : x ≤ (widthTrace 0 ws).getD i 0 := H.1 x hx
    rw [heq] at hx0
    have hx1 : x = 0 := Nat.le_zero.mp hx0
    rw [heq, ← hx1]
    exact hx

/-- Witness for `column_width_monotone_max` at the widths [100, 50, 200, 10]
and row index 1. -/
theorem column_width_monotone_max_witness :
    (∀ w ∈ [100, 50, 200, 10].take (1 + 1), w ≤ (widthTrace 0 [100, 50, 200, 10]).getD 1 0) ∧
    (widthTrace 0 [100, 50, 200, 10]).getD 1 0 ∈ [100, 50, 200, 10].take (1 + 1) :=
  column_width_monotone_max.2.1 [100, 50, 200, 10] 1 (by decide)

/-! ## The brand cap (C9) -/

/-- C9 counterexample: with a ledger already holding five URLs, the run
breaks out of the brand loop after scraping a single unprocessed brand,
leaving another unprocessed brand unvisited — the loop's cap (line 93) is
on the total ledger size, not on the number of brands processed in the
run, so fewer than 5 brands are processed before the run stops. -/
theorem brand_cap_counts_total_ledger :
    (runBrands
      [{ url := "f".toList, initFails := false, closeFails := false,
         models := [{ pageFails := false, submodels := [SubOutcome.saved 10] }] },
       { url := "g".toList, initFails := false, closeFails := false,
         models := [{ pageFails := false, submodels := [SubOutcome.saved 10] }] }]
      ["a".toList, "b".toList, "c".toList, "d".toList, "e".toList]).scrapeCalls = 1 ∧
    (runBrands
      [{ url := "f".toList, initFails := false, closeFails := false,
         models := [{ pageFails := false, submodels := [SubOutcome.saved 10] }] },
       { url := "g".toList, initFails := false, closeFails := false,
         models := [{ pageFails := false, submodels := [SubOutcome.saved 10] }] }]
      ["a".toList, "b".toList, "c".toList, "d".toList, "e".toList]).halted = false ∧
    (runBrands
      [{ url := "f".toList, initFails := false, closeFails := false,
         models := [{ pageFails := false, submodels := [SubOutcome.saved 10] }] },
       { url := "g".toList, initFails := false, closeFails := false,
         models := [{ pageFails := false, submodels := [SubOutcome.saved 10] }] }]
      ["a".toList, "b".toList, "c".toList, "d".toList, "e".toList]).stopped = true ∧
    "g".toList ∉
      (runBrands
        [{ url := "f".toList, initFails := false, closeFails := false,
           models := [{ pageFails := false, submodels := [SubOutcome.saved 10] }] },
         { url := "g".toList, initFails := false, closeFails := false,
           models := [{ pageFails := false, submodels := [SubOutcome.saved 10] }] }]
        ["a".toList, "b".toList, "c".toList, "d".toList, "e".toList]).ledger := by
  decide

/-- C9 amended: the loop breaks once the total ledger length exceeds 4
(line 93), so a run invokes `scrape_brand` at most
`max (5 - initial ledger size) 1` times; only with an empty initial
ledger does this equal a per-run cap of 5. -/
theorem brand_cap_ledger_bound :
    ∀ (brands : List BrandData) (L : List (List Char)),
      (runBrands brands L).scrapeCalls ≤ max (5 - L.length) 1 ∧
      (runBrands brands [] : RunResult).scrapeCalls ≤ 5 := by
  have main : ∀ (brands : List BrandData) (L : List (List Char)),
      (runBrands brands L).scrapeCalls ≤ max (5 - L.length) 1 := by
    intro brands
    induction brands with
    | nil => intro L; simp [runBrands]
    | cons b rest ih =>
      intro L
      by_cases hmem : b.url ∈ L
      · by_cases hl : L.length > 4
        · simp [runBrands, hmem, hl]
        · simp only [runBrands, if_pos hmem, if_neg hl]
          exact ih L
      · by_cases hs : (scrapeBrandRun b).success = true
        · by_cases hl : (L ++ [b.url]).length > 4
          · have hl2 : 4 < L.length + 1 := by simpa using hl
            simp [runBrands, hmem, hs, hl2]
          · simp only [runBrands, if_neg hmem, if_pos hs, if_neg hl]
            have h5 := ih (L ++ [b.url])
            simp only [List.length_append, List.length_cons, List.length_nil,
              Nat.zero_add] at h5 hl
            show (runBrands rest (L ++ [b.url])).scrapeCalls + 1 ≤ max (5 - L.length) 1
            omega
        · simp [runBrands, hmem, hs]
  intro brands L
  refine ⟨main brands L, le_trans (main brands []) (by simp)⟩

/-! ## Atomic brand completion (C8) -/

theorem runBrands_cons_skip_break (b : BrandData) (rest : List BrandData)
    (L : List (List Char)) (h1 : b.url ∈ L) (h2 : L.length > 4) :
    runBrands (b :: rest) L =
      { ledger := L, scrapeCalls := 0, fetches := 0, writes := 0,
        halted := false, stopped := true } := by
  simp [runBrands, h1, h2]

theorem runBrands_cons_skip_cont (b : BrandData) (rest : List BrandData)
    (L : List (List Char)) (h1 : b.url ∈ L) (h2 : ¬(L.length > 4)) :
    runBrands (b :: rest) L = runBrands rest L := by
  simp [runBrands, h1, h2]

theorem runBrands_cons_fail (b : BrandData) (rest : List BrandData)
    (L : List (List Char)) (h1 : b.url ∉ L) (h2 : (scrapeBrandRun b).success = false) :
    runBrands (b :: rest) L =
      { ledger := L, scrapeCalls := 1, fetches := (scrapeBrandRun b).fetches,
        writes := (scrapeBrandRun b).writes, halted := true, stopped := true } := by
  simp [runBrands, h1, h2]

theorem runBrands_cons_success_break (b : BrandData) (rest : List BrandData)
    (L : List (List Char)) (h1 : b.url ∉ L) (h2 : (scrapeBrandRun b).success = true)
    (h3 : (L ++ [b.url]).length > 4) :
    runBrands (b :: rest) L =
      { ledger := L ++ [b.url], scrapeCalls := 1, fetches := (scrapeBrandRun b).fetches,
        writes := (scrapeBrandRun b).writes, halted := false, stopped := true } := by
  have h3' : 4 < L.length + 1 := by simpa using h3
  simp [runBrands, h1, h2, h3']

theorem runBrands_cons_success_cont (b : BrandData) (rest : List BrandData)
    (L : List (List Char)) (h1 : b.url ∉ L) (h2 : (scrapeBrandRun b).success = true)
    (h3 : ¬((L ++ [b.url]).length > 4)) :
    runBrands (b :: rest) L =
      { ledger := (runBrands rest (L ++ [b.url])).ledger,
        scrapeCalls := (runBrands rest (L ++ [b.url])).scrapeCalls + 1,
        fetches := (runBrands rest (L ++ [b.url])).fetches + (scrapeBrandRun b).fetches,
        writes := (runBrands rest (L ++ [b.url])).writes + (scrapeBrandRun b).writes,
        halted := (runBrands rest (L ++ [b.url])).halted,
        stopped := (runBrands rest (L ++ [b.url])).stopped } := by
  have h3' : ¬(4 < L.length + 1) := by simpa using h3
  simp [runBrands, h1, h2, h3']

theorem runBrands_ledger_mem : ∀ (brands : List BrandData) (L : List (List Char))
    (x : List Char), x ∈ (runBrands brands L).ledger →
    x ∈ L ∨ ∃ bd, bd ∈ brands ∧ bd.url = x := by
  intro brands
  induction brands with
  | nil =>
    intro L x hx
    exact Or.inl (by simpa [runBrands] using hx)
  | cons b rest ih =>
    intro L x hx
    by_cases hmem : b.url ∈ L
    · by_cases hl : L.length > 4
      · rw [runBrands_cons_skip_break b rest L hmem hl] at hx
        exact Or.inl hx
      · rw [runBrands_cons_skip_cont b rest L hmem hl] at hx
        rcases ih L x hx with h | ⟨bd, hbd, hurl⟩
        · exact Or.inl h
        · exact Or.inr ⟨bd, List.mem_cons_of_mem _ hbd, hurl⟩
    · by_cases hsuc : (scrapeBrandRun b).success = true
      · by_cases hl : (L ++ [b.url]).length > 4
        · rw [runBrands_cons_success_break b rest L hmem hsuc hl] at hx
          rcases List.mem_append.mp hx with h | h
          · exact Or.inl h
          · exact Or.inr ⟨b, List.mem_cons_self _ _, (List.mem_singleton.mp h).symm⟩
        · rw [runBrands_cons_success_cont b rest L hmem hsuc hl] at hx
          simp only at hx
          rcases ih (L ++ [b.url]) x hx with h | ⟨bd, hbd, hurl⟩
          · rcases List.mem_append.mp h with h' | h'
            · exact Or.inl h'
            · exact Or.inr ⟨b, List.mem_cons_self _ _, (List.mem_singleton.mp h').symm⟩
          · exact Or.inr ⟨bd, List.mem_cons_of_mem _ hbd, hurl⟩
      · have hsuc' : (scrapeBrandRun b).success = false := by
          cases h : (scrapeBrandRun b).success
          · rfl
          · exact absurd h hsuc
        rw [runBrands_cons_fail b rest L hmem hsuc'] at hx
        exact Or.inl hx

theorem runBrands_halts_at_failing_brand (b : BrandData) (post : List BrandData) :
    ∀ (pre : List BrandData) (L : List (List Char)),
      (scrapeBrandRun b).success = false →
      b.url ∉ (runBrands pre L).ledger →
      (runBrands pre L).stopped = false →
      (runBrands (pre ++ b :: post) L).ledger = (runBrands pre L).ledger ∧
      (runBrands (pre ++ b :: post) L).halted = true ∧
      (runBrands (pre ++ b :: post) L).scrapeCalls = (runBrands pre L).scrapeCalls + 1 := by
  intro pre
  induction pre with
  | nil =>
    intro L hs hnot hstop
    have hnotL : b.url ∉ L := by simpa [runBrands] using hnot
    simp only [List.nil_append]
    rw [runBrands_cons_fail b post L hnotL hs]
    simp [runBrands]
  | cons p pre' ih =>
    intro L hs hnot hstop
    by_cases hmem : p.url ∈ L
    · by_cases hl : L.length > 4
      · rw [runBrands_cons_skip_break p pre' L hmem hl] at hstop
        simp at hstop
      · rw [List.cons_append, runBrands_cons_skip_cont p (pre' ++ b :: post) L hmem hl]
        rw [runBrands_cons_skip_cont p pre' L hmem hl] at hnot hstop ⊢
        exact ih L hs hnot hstop
    · by_cases hsuc : (scrapeBrandRun p).success = true
      · by_cases hl : (L ++ [p.url]).length > 4
        · rw [runBrands_cons_success_break p pre' L hmem hsuc hl] at hstop
          simp at hstop
        · rw [List.cons_append, runBrands_cons_success_cont p (pre' ++ b :: post) L hmem hsuc hl]
          rw [runBrands_cons_success_cont p pre' L hmem hsuc hl] at hnot hstop ⊢
          simp only at hnot hstop ⊢
          have H := ih (L ++ [p.url]) hs hnot hstop
          exact ⟨H.1, H.2.1, by rw [H.2.2]⟩
      · have hsuc' : (scrapeBrandRun p).success = false := by
          cases h : (scrapeBrandRun p).success
          · rfl
          · exact absurd h hsuc
        rw [runBrands_cons_fail p pre' L hmem hsuc'] at hstop
        simp at hstop

theorem processSubmodels_ok_of_fail : ∀ (subs : List SubOutcome) (st : LoopState),
    subs.any isFailImage = true → (processSubmodels subs st).ok = false := by
  intro subs
  induction subs with
  | nil => intro st h; simp at h
  | cons s rest ih =>
    intro st h
    cases s with
    | saved w =>
      have h' : rest.any isFailImage = true := by simpa [isFailImage] using h
      exact ih _ h'
    | failImage => simp [processSubmodels]

theorem processSubmodels_ok_of_no_fail : ∀ (subs : List SubOutcome) (st : LoopState),
    subs.any isFailImage = false → (processSubmodels subs st).ok = st.ok := by
  intro subs
  induction subs with
  | nil => intro st h; rfl
  | cons s rest ih =>
    intro st h
    cases s with
    | saved w =>
      have h' : rest.any isFailImage = false := by simpa [isFailImage] using h
      simpa [processSubmodels] using ih _ h'
    | failImage => simp [isFailImage] at h

theorem processModels_ok_of_fail : ∀ (models : List ModelData) (st : LoopState),
    (∀ m ∈ models, m.pageFails = false) →
    models.any (fun m => m.submodels.any isFailImage) = true →
    st.ok = true → (processModels models st).ok = false := by
  intro models
  induction models with
  | nil => intro st hpf hany hok; simp at hany
  | cons m rest ih =>
    intro st hpf hany hok
    have hm : m.pageFails = false := hpf m (List.mem_cons_self _ _)
    cases ha : m.submodels.any isFailImage with
    | false =>
      have h2 : (processSubmodels m.submodels
          { st with fetches := st.fetches + 1 }).ok = true := by
        rw [processSubmodels_ok_of_no_fail _ _ ha]
        exact hok
      have hrest : rest.any (fun x => x.submodels.any isFailImage) = true := by
        simpa [ha] using hany
      simp only [processModels, hm, Bool.false_eq_true, if_false, h2, if_true]
      exact ih _ (fun x hx => hpf x (List.mem_cons_of_mem _ hx)) hrest h2
    | true =>
      have h2 : (processSubmodels m.submodels
          { st with fetches := st.fetches + 1 }).ok = false :=
        processSubmodels_ok_of_fail _ _ ha
      simp only [processModels, hm, Bool.false_eq_true, if_false, h2, Bool.false_eq_true]

theorem scrapeBrandRun_success_false (b : BrandData) (h1 : b.initFails = false)
    (h2 : ∀ m ∈ b.models, m.pageFails = false) (h3 : brandHasSaveFailure b = true) :
    (scrapeBrandRun b).success = false := by
  simp only [scrapeBrandRun, h1, Bool.false_eq_true, if_false]
  exact processModels_ok_of_fail b.models _ h2 h3 rfl

/-- C8: if `save_item` returns `None` for some submodel of a brand whose
pages otherwise scrape, and the run reaches that brand still unprocessed,
then after the run the ledger does not contain the brand's URL, the run
has halted through the fatal-error return of `main` (lines 89-91), and
exactly one more `scrape_brand` call was made than for the preceding
brands — no brand after it is processed. -/
theorem failed_save_halts_run_outside_ledger (pre post : List BrandData) (b : BrandData)
    (L : List (List Char))
    (hinit : b.initFails = false)
    (hpages : ∀ m ∈ b.models, m.pageFails = false)
    (hfail : brandHasSaveFailure b = true)
    (hnotL : b.url ∉ L)
    (hnotpre : ∀ p ∈ pre, p.url ≠ b.url)
    (hreach : (runBrands pre L).stopped = false) :
    b.url ∉ (runBrands (pre ++ b :: post) L).ledger ∧
    (runBrands (pre ++ b :: post) L).halted = true ∧
    (runBrands (pre ++ b :: post) L).scrapeCalls = (runBrands pre L).scrapeCalls + 1 := by
  have hs := scrapeBrandRun_success_false b hinit hpages hfail
  have hnotled : b.url ∉ (runBrands pre L).ledger := by
    intro hmem
    rcases runBrands_ledger_mem pre L b.url hmem with h | ⟨bd, hbd, hurl⟩
    · exact hnotL h
    · exact hnotpre bd hbd hurl
  have H := runBrands_halts_at_failing_brand b post pre L hs hnotled hreach
  refine ⟨?_, H.2.1, H.2.2⟩
  rw [H.1]
  exact hnotled

/-- Witness for `failed_save_halts_run_outside_ledger`: a failing brand
followed by a healthy brand, starting from an empty ledger. -/
theorem failed_save_halts_run_outside_ledger_witness :
    "x".toList ∉
      (runBrands
        ([] ++ { url := "x".toList, initFails := false, closeFails := false,
                 models := [{ pageFails := false, submodels := [SubOutcome.failImage] }] } ::
          [{ url := "y".toList, initFails := false, closeFails := false,
             models := [{ pageFails := false, submodels := [SubOutcome.saved 10] }] }])
        []).ledger ∧
    (runBrands
      ([] ++ { url := "x".toList, initFails := false, closeFails := false,
               models := [{ pageFails := false, submodels := [SubOutcome.failImage] }] } ::
        [{ url := "y".toList, initFails := false, closeFails := false,
           models := [{ pageFails := false, submodels := [SubOutcome.saved 10] }] }])
      []).halted = true ∧
    (runBrands
      ([] ++ { url := "x".toList, initFails := false, closeFails := false,
               models := [{ pageFails := false, submodels := [SubOutcome.failImage] }] } ::
        [{ url := "y".toList, initFails := false, closeFails := false,
           models := [{ pageFails := false, submodels := [SubOutcome.saved 10] }] }])
      []).scrapeCalls = (runBrands [] []).scrapeCalls + 1 :=
  failed_save_halts_run_outside_ledger []
    [{ url := "y".toList, initFails := false, closeFails := false,
       models := [{ pageFails := false, submodels := [SubOutcome.saved 10] }] }]
    { url := "x".toList, initFails := false, closeFails := false,
      models := [{ pageFails := false, submodels := [SubOutcome.failImage] }] }
    [] (by decide) (by decide) (by decide) (by decide) (by decide) (by decide)

/-! ## Ledger round trip (C10) -/

theorem splitLine_no_newline (u : List Char) (r : List Char)
    (hu : ∀ c ∈ u, c ≠ '\n') :
    splitLine (u ++ '\n' :: r) = (u ++ ['\n'], r) := by
  induction u with
  | nil => simp [splitLine]
  | cons c u' ih =>
    have hc : c ≠ '\n' := hu c (List.mem_cons_self _ _)
    have hu' : ∀ x ∈ u', x ≠ '\n' := fun x hx => hu x (List.mem_cons_of_mem _ hx)
    simp [splitLine, hc, ih hu']

theorem readlines_cons_line (u : List Char) (r : List Char)
    (hu : ∀ c ∈ u, c ≠ '\n') :
    readlines (u ++ '\n' :: r) = (u ++ ['\n']) :: readlines r := by
  have hs := splitLine_no_newline u r hu
  cases u with
  | nil =>
    rw [List.nil_append, readlines]
    rw [List.nil_append] at hs
    rw [hs]
  | cons c u' =>
    rw [List.cons_append, readlines, ← List.cons_append, hs]

theorem dropWhile_of_no_space (l : List Char) (h : ∀ c ∈ l, pyIsSpace c = false) :
    l.dropWhile pyIsSpace = l := by
  cases l with
  | nil => rfl
  | cons c r => simp [List.dropWhile, h c (List.mem_cons_self _ _)]

theorem pystrip_line (u : List Char) (h : ∀ c ∈ u, pyIsSpace c = false) :
    pystrip (u ++ ['\n']) = u := by
  cases hu : u with
  | nil => simp [pystrip, List.dropWhile, pyIsSpace]
  | cons c u' =>
    rw [← hu]
    have hfront : (u ++ ['\n']).dropWhile pyIsSpace = u ++ ['\n'] := by
      rw [hu]
      simp [List.dropWhile, h c (by rw [hu]; exact List.mem_cons_self _ _)]
    have hrev : (u ++ ['\n']).reverse = '\n' :: u.reverse := by simp
    rw [pystrip, hfront, hrev]
    have hnl : pyIsSpace '\n' = true := by decide
    simp only [List.dropWhile, hnl]
    rw [dropWhile_of_no_space u.reverse (fun c hc => h c (List.mem_reverse.mp hc))]
    exact List.reverse_reverse u

/-- C10: saving a list of non-empty, whitespace-free URLs with
`save_brand_list` and loading the written file back with
`load_brand_list` returns exactly that list, in order. -/
theorem ledger_round_trip (brands : List (List Char))
    (h : ∀ u ∈ brands, u ≠ [] ∧ ∀ c ∈ u, pyIsSpace c = false) :
    load_brand_list (save_brand_list brands) = brands := by
  induction brands with
  | nil => simp [load_brand_list, save_brand_list, readlines]
  | cons u rest ih =>
    have hu := h u (List.mem_cons_self _ _)
    have hrest : ∀ x ∈ rest, x ≠ [] ∧ ∀ c ∈ x, pyIsSpace c = false :=
      fun x hx => h x (List.mem_cons_of_mem _ hx)
    have hnn : ∀ c ∈ u, c ≠ '\n' := by
      intro c hc he
      have := hu.2 c hc
      rw [he] at this
      exact absurd this (by decide)
    show load_brand_list (u ++ '\n' :: save_brand_list rest) = u :: rest
    rw [load_brand_list, readlines_cons_line u _ hnn]
    simp only [List.map_cons]
    rw [pystrip_line u hu.2]
    exact congrArg (u :: ·) (ih hrest)

/-- Witness for `ledger_round_trip` on two concrete URLs. -/
theorem ledger_round_trip_witness :
    load_brand_list (save_brand_list
      ["https://www.tunisport.es/catalog/chip-tuning/audi".toList,
       "https://www.tunisport.es/catalog/chip-tuning/bmw".toList]) =
      ["https://www.tunisport.es/catalog/chip-tuning/audi".toList,
       "https://www.tunisport.es/catalog/chip-tuning/bmw".toList] :=
  ledger_round_trip _ (by decide)

/-! ## Filename injectivity (C3) -/

/-- C3 counterexample: two items of the same brand with distinct
`(model, submodel)` pairs — ("a b", "c") and ("a", "b c") — derive the
same sanitized filename, because the white-space collapsing of line 256
merges the word boundaries. -/
theorem image_name_not_injective :
    image_name "b".toList "a b".toList "c".toList "x.jpg".toList =
      image_name "b".toList "a".toList "b c".toList "x.jpg".toList ∧
    ("a b".toList, "c".toList) ≠ ("a".toList, "b c".toList) := by
  decide

theorem replaceForbidden_id (l : List Char) (h : ∀ c ∈ l, isForbidden c = false) :
    replaceForbidden l = l := by
  induction l with
  | nil => rfl
  | cons c l' ih =>
    have hc := h c (List.mem_cons_self _ _)
    have hl' := ih (fun x hx => h x (List.mem_cons_of_mem _ hx))
    simp only [replaceForbidden, List.map_cons, hc, Bool.false_eq_true, if_false]
    simpa [replaceForbidden] using hl'

theorem collapseAux_id_of_none (p : Char → Bool) (l : List Char)
    (h : ∀ c ∈ l, p c = false) : ∀ flag, collapseAux p flag l = l := by
  induction l with
  | nil => intro flag; rfl
  | cons c l' ih =>
    intro flag
    have hc := h c (List.mem_cons_self _ _)
    simp [collapseAux, hc, ih (fun x hx => h x (List.mem_cons_of_mem _ hx)) false]

theorem collapseAux_append_of_none (p : Char → Bool) (l r : List Char)
    (h : ∀ c ∈ l, p c = false) :
    collapseAux p false (l ++ r) = l ++ collapseAux p false r := by
  induction l with
  | nil => rfl
  | cons c l' ih =>
    have hc := h c (List.mem_cons_self _ _)
    simp [collapseAux, hc, ih (fun x hx => h x (List.mem_cons_of_mem _ hx))]

theorem collapseAux_dash_cons (r : List Char) :
    collapseAux (fun c => c = '-') false ('-' :: r) =
      '-' :: collapseAux (fun c => c = '-') true r := by
  simp [collapseAux]

theorem collapseAux_true_of_head (p : Char → Bool) (l : List Char)
    (h : ∀ c, l.head? = some c → p c = false) :
    collapseAux p true l = collapseAux p false l := by
  cases l with
  | nil => rfl
  | cons c cs =>
    have hc := h c rfl
    simp [collapseAux, hc]

theorem suffix_of_eq_append (t1 t2 l1 l2 : List Char)
    (h : t1 ++ l1 = t2 ++ l2) (hle : t2.length ≤ t1.length) : l1 <:+ l2 := by
  refine ⟨t1.drop t2.length, ?_⟩
  have e : (t1 ++ l1).drop t2.length = (t2 ++ l2).drop t2.length := by rw [h]
  rw [List.drop_append_of_le_length hle] at e
  rw [List.drop_left] at e
  exact e

theorem suffix_total (l1 l2 l3 : List Char) (h1 : l1 <:+ l3) (h2 : l2 <:+ l3) :
    l1 <:+ l2 ∨ l2 <:+ l1 := by
  rcases h1 with ⟨t1, ht1⟩
  rcases h2 with ⟨t2, ht2⟩
  have he : t1 ++ l1 = t2 ++ l2 := ht1.trans ht2.symm
  rcases Nat.le_total t2.length t1.length with hle | hle
  · exact Or.inl (suffix_of_eq_append t1 t2 l1 l2 he hle)
  · exact Or.inr (suffix_of_eq_append t2 t1 l2 l1 he.symm hle)

theorem joined_no_trailing_ellipsis (b m s : List Char)
    (hs0 : s ≠ []) (hsd : ∀ c ∈ s, c ≠ '-') (hs3 : s ≠ ['.', '.', '.']) :
    ¬(['-', '.', '.', '.'] <:+ (b ++ ('-' :: (m ++ ('-' :: s))))) := by
  intro hpat
  have hssuf : ('-' :: s) <:+ (b ++ ('-' :: (m ++ ('-' :: s)))) := by
    refine ⟨b ++ ('-' :: m), ?_⟩
    simp
  rcases suffix_total _ _ _ hpat hssuf with hA | hB
  · rcases hA with ⟨t, ht⟩
    cases t with
    | nil =>
      simp only [List.nil_append] at ht
      have : s = ['.', '.', '.'] := by
        have := List.cons.injEq '-' ['.', '.', '.'] '-' s ▸ ht
        simpa using ht.symm
      exact hs3 this
    | cons x t' =>
      have hmem : '-' ∈ s := by
        have : s = t' ++ ['-', '.', '.', '.'] := by
          have := ht
          simp only [List.cons_append] at this
          exact (List.cons.injEq _ _ _ _ ▸ this).2.symm
        rw [this]
        simp
      exact hsd '-' hmem rfl
  · rcases hB with ⟨t, ht⟩
    rcases t with _ | ⟨x, _ | ⟨y, _ | ⟨z, _ | ⟨w, t4⟩⟩⟩⟩
    · simp only [List.nil_append] at ht
      have h2 : s = ['.', '.', '.'] := by simpa using ht
      exact hs3 h2
    · simp at ht
    · simp at ht
    · have h2 : s = [] := by
        have hlen := congrArg List.length ht
        simp at hlen
        exact hlen
      exact hs0 h2
    · have hlen := congrArg List.length ht
      simp at hlen

theorem splitDot_ne_nil : ∀ l : List Char, splitDot l ≠ [] := by
  intro l
  cases l with
  | nil => simp [splitDot]
  | cons a rest =>
    by_cases ha : a = '.'
    · simp [splitDot, ha]
    · simp only [splitDot, if_neg ha]
      cases hsp : splitDot rest <;> simp

theorem imageExt_no_dot : ∀ (url : List Char) (c : Char), c ∈ imageExt url → c ≠ '.' := by
  intro url
  induction url with
  | nil => intro c hc; simp [imageExt, splitDot] at hc
  | cons a rest ih =>
    intro c hc
    by_cases ha : a = '.'
    · rw [imageExt] at hc
      simp only [splitDot, if_pos ha] at hc
      rw [List.getLastD_cons] at hc
      exact ih c hc
    · rw [imageExt] at hc
      simp only [splitDot, if_neg ha] at hc
      cases hsp : splitDot rest with
      | nil => exact absurd hsp (splitDot_ne_nil rest)
      | cons h t =>
        rw [hsp] at hc
        cases t with
        | nil =>
          simp only [List.getLastD_cons, List.getLastD_nil] at hc
          rcases List.mem_cons.mp hc with rfl | hch
          · exact ha
          · apply ih c
            rw [imageExt, hsp]
            simpa using hch
        | cons t0 t' =>
          rw [List.getLastD_cons, List.getLastD_cons] at hc
          apply ih c
          rw [imageExt, hsp, List.getLastD_cons, List.getLastD_cons]
          exact hc

theorem append_sep_inj (sep : Char) : ∀ (m1 m2 r1 r2 : List Char),
    (∀ c ∈ m1, c ≠ sep) → (∀ c ∈ m2, c ≠ sep) →
    m1 ++ sep :: r1 = m2 ++ sep :: r2 → m1 = m2 ∧ r1 = r2 := by
  intro m1
  induction m1 with
  | nil =>
    intro m2 r1 r2 h1 h2 he
    cases m2 with
    | nil =>
      simp only [List.nil_append, List.cons.injEq] at he
      exact ⟨rfl, he.2⟩
    | cons d m2' =>
      simp only [List.nil_append, List.cons_append, List.cons.injEq] at he
      exact absurd he.1.symm (h2 d (List.mem_cons_self _ _))
  | cons c m1' ih =>
    intro m2 r1 r2 h1 h2 he
    cases m2 with
    | nil =>
      simp only [List.cons_append, List.nil_append, List.cons.injEq] at he
      exact absurd he.1 (h1 c (List.mem_cons_self _ _))
    | cons d m2' =>
      simp only [List.cons_append, List.cons.injEq] at he
      have := ih m2' r1 r2 (fun x hx => h1 x (List.mem_cons_of_mem _ hx))
        (fun x hx => h2 x (List.mem_cons_of_mem _ hx)) he.2
      exact ⟨by rw [he.1, this.1], this.2⟩

/-- A component that the sanitization pipeline leaves untouched: non-empty
and free of forbidden characters, white-space and dashes. -/
def CleanComponent (l : List Char) : Prop :=
  l ≠ [] ∧ ∀ c ∈ l, isForbidden c = false ∧ pyIsSpace c = false ∧ c ≠ '-'

instance (l : List Char) : Decidable (CleanComponent l) :=
  inferInstanceAs (Decidable (l ≠ [] ∧ ∀ c ∈ l,
    isForbidden c = false ∧ pyIsSpace c = false ∧ c ≠ '-'))

theorem sanitize_clean (b m s : List Char)
    (hb : CleanComponent b) (hm : CleanComponent m) (hs : CleanComponent s)
    (hs3 : s ≠ ['.', '.', '.']) :
    sanitizeName (b ++ ('-' :: (m ++ ('-' :: s)))) = b ++ ('-' :: (m ++ ('-' :: s))) := by
  have hall : ∀ c ∈ b ++ ('-' :: (m ++ ('-' :: s))),
      isForbidden c = false ∧ pyIsSpace c = false := by
    intro c hc
    simp only [List.mem_append, List.mem_cons] at hc
    rcases hc with hcb | rfl | hcm | rfl | hcs
    · exact ⟨(hb.2 c hcb).1, (hb.2 c hcb).2.1⟩
    · exact ⟨by decide, by decide⟩
    · exact ⟨(hm.2 c hcm).1, (hm.2 c hcm).2.1⟩
    · exact ⟨by decide, by decide⟩
    · exact ⟨(hs.2 c hcs).1, (hs.2 c hcs).2.1⟩
  rw [sanitizeName, replaceForbidden_id _ (fun c hc => (hall c hc).1)]
  rw [show collapseSpaces (b ++ ('-' :: (m ++ ('-' :: s)))) =
      b ++ ('-' :: (m ++ ('-' :: s))) from
    collapseAux_id_of_none pyIsSpace _ (fun c hc => (hall c hc).2) false]
  have hmhead : ∀ c, (m ++ ('-' :: s)).head? = some c → (c = '-' : Bool) = false := by
    intro c hc
    rcases hm with ⟨hm0, hmc⟩
    cases m with
    | nil => exact absurd rfl hm0
    | cons a m' =>
      simp only [List.cons_append, List.head?_cons, Option.some.injEq] at hc
      subst hc
      simpa using (hmc a (List.mem_cons_self _ _)).2.2
  have hshead : ∀ c, s.head? = some c → (c = '-' : Bool) = false := by
    intro c hc
    rcases hs with ⟨hs0, hsc⟩
    cases s with
    | nil => exact absurd rfl hs0
    | cons a s' =>
      simp only [List.head?_cons, Option.some.injEq] at hc
      subst hc
      simpa using (hsc a (List.mem_cons_self _ _)).2.2
  have hdash : collapseDashes (b ++ ('-' :: (m ++ ('-' :: s)))) =
      b ++ ('-' :: (m ++ ('-' :: s))) := by
    rw [collapseDashes]
    rw [collapseAux_append_of_none _ b _
      (fun c hc => by simpa using (hb.2 c hc).2.2)]
    rw [collapseAux_dash_cons, collapseAux_true_of_head _ _ hmhead]
    rw [collapseAux_append_of_none _ m _
      (fun c hc => by simpa using (hm.2 c hc).2.2)]
    rw [collapseAux_dash_cons, collapseAux_true_of_head _ _ hshead]
    rw [collapseAux_id_of_none _ s (fun c hc => by simpa using (hs.2 c hc).2.2) false]
  rw [hdash, stripTrailingEllipsis, if_neg]
  intro hsuf
  exact joined_no_trailing_ellipsis b m s hs.1 (fun c hc => (hs.2 c hc).2.2)
    hs3 (List.isSuffixOf_iff_suffix.mp hsuf)

theorem reverse_append_cons (A E : List Char) (c : Char) :
    (A ++ c :: E).reverse = E.reverse ++ c :: A.reverse := by
  simp

/-- C3 amended: within one brand, the filename derivation of `save_item`
is injective on `(model, submodel)` pairs whose components are non-empty
and already sanitized (no forbidden characters, no white-space, no
dashes), with the submodel not equal to "..."; the unrestricted claim
fails because white-space collapsing can merge distinct pairs. -/
theorem image_name_injective_on_clean (brand m1 s1 m2 s2 url1 url2 : List Char)
    (hb : CleanComponent brand) (hm1 : CleanComponent m1) (hs1 : CleanComponent s1)
    (hm2 : CleanComponent m2) (hs2 : CleanComponent s2)
    (he1 : s1 ≠ ['.', '.', '.']) (he2 : s2 ≠ ['.', '.', '.'])
    (hne : (m1, s1) ≠ (m2, s2)) :
    image_name brand m1 s1 url1 ≠ image_name brand m2 s2 url2 := by
  intro heq
  rw [image_name, image_name, sanitize_clean brand m1 s1 hb hm1 hs1 he1,
    sanitize_clean brand m2 s2 hb hm2 hs2 he2] at heq
  have hrev : (imageExt url1).reverse ++
        '.' :: (brand ++ ('-' :: (m1 ++ ('-' :: s1)))).reverse =
      (imageExt url2).reverse ++
        '.' :: (brand ++ ('-' :: (m2 ++ ('-' :: s2)))).reverse := by
    rw [← reverse_append_cons, ← reverse_append_cons, heq]
  have hd1 : ∀ c ∈ (imageExt url1).reverse, c ≠ '.' :=
    fun c hc => imageExt_no_dot url1 c (List.mem_reverse.mp hc)
  have hd2 : ∀ c ∈ (imageExt url2).reverse, c ≠ '.' :=
    fun c hc => imageExt_no_dot url2 c (List.mem_reverse.mp hc)
  obtain ⟨hE, hArev⟩ := append_sep_inj '.' _ _ _ _ hd1 hd2 hrev
  have hA : brand ++ ('-' :: (m1 ++ ('-' :: s1))) =
      brand ++ ('-' :: (m2 ++ ('-' :: s2))) := by
    have h2 := congrArg List.reverse hArev
    simpa using h2
  have hmm : m1 ++ ('-' :: s1) = m2 ++ ('-' :: s2) := by
    have h2 := List.append_cancel_left hA
    simpa using h2
  obtain ⟨hm, hs⟩ := append_sep_inj '-' m1 m2 s1 s2
    (fun c hc => (hm1.2 c hc).2.2) (fun c hc => (hm2.2 c hc).2.2) hmm
  exact hne (by rw [hm, hs])

/-- Witness for `image_name_injective_on_clean` at distinct clean
submodels "y" and "z" of the same brand and model. -/
theorem image_name_injective_on_clean_witness :
    image_name "b".toList "x".toList "y".toList "i.png".toList ≠
      image_name "b".toList "x".toList "z".toList "i.png".toList :=
  image_name_injective_on_clean "b".toList "x".toList "y".toList "x".toList "z".toList
    "i.png".toList "i.png".toList (by decide) (by decide) (by decide) (by decide)
    (by decide) (by decide) (by decide) (by decide)
